import Mathlib

/-!
Verification of the single-decree Paxos actor in `src/main.rs` (crate `paxos-rs`).

The Rust code is shallowly embedded: `PaxosState`, `RoundIdentifier`, the
message enums and the `on_msg` handler are translated field by field. Rust's
`u32` round counter is modelled as a `Nat` reduced modulo `2 ^ 32` where it is
incremented; `BTreeMap`/`BTreeSet` are modelled as canonically sorted
association lists / sorted duplicate-free lists, so that state equality in Lean
coincides with the extensional map/set equality the Rust derives give.
A message-soup transition system (`Step`, `Reachable`) models the asynchronous
network: every message ever sent stays available for delivery, which covers
reordering, duplication and loss of messages.
-/

namespace Paxos

/-- Mirrors `struct RoundIdentifier { round_num: u32, id: Id }`.  Stateright
`Id` values are plain machine integers, modelled as `Nat`. -/
structure RoundIdentifier where
  round_num : Nat
  id : Nat
deriving DecidableEq, Repr

/-- Mirrors `impl Ord for RoundIdentifier`: compare `round_num` first, then
`id`.  `ridLt a b` holds when `a` is strictly below `b` in that order. -/
def ridLt (a b : RoundIdentifier) : Bool :=
  if a.round_num ≠ b.round_num then decide (a.round_num < b.round_num)
  else decide (a.id < b.id)

/-- `type RegisterValue = char`. -/
abbrev RegisterValue := Char

/-- Mirrors `enum PaxosMsg`.  First field is the stateright request id
(`u64`), second the original client (`org_sender`), third the round
identifier; `Accept`/`Accepted` also carry the value. -/
inductive PaxosMsg where
  | Prepare (request_id : Nat) (org_sender : Nat) (rid : RoundIdentifier)
  | Promise (request_id : Nat) (org_sender : Nat) (rid : RoundIdentifier)
  | Accept (request_id : Nat) (org_sender : Nat) (rid : RoundIdentifier) (value : RegisterValue)
  | Accepted (request_id : Nat) (org_sender : Nat) (rid : RoundIdentifier) (value : RegisterValue)
deriving DecidableEq, Repr

/-- Mirrors stateright's `RegisterMsg<u64, RegisterValue, PaxosMsg>`, the
actor's message type. -/
inductive RegisterMsg where
  | Put (request_id : Nat) (value : RegisterValue)
  | Get (request_id : Nat)
  | PutOk (request_id : Nat)
  | GetOk (request_id : Nat) (value : RegisterValue)
  | Internal (m : PaxosMsg)
deriving DecidableEq, Repr

/-- Insertion into a sorted duplicate-free `Nat` list; models
`BTreeSet<Id>::insert`. -/
def listInsert (x : Nat) : List Nat → List Nat
  | [] => [x]
  | y :: ys =>
    if x < y then x :: y :: ys
    else if x = y then y :: ys
    else y :: listInsert x ys

/-- Lookup in an association list keyed by `RoundIdentifier`; models
`BTreeMap::get`. -/
def mapFind {α : Type} (k : RoundIdentifier) : List (RoundIdentifier × α) → Option α
  | [] => none
  | (k1, v1) :: rest => if k = k1 then some v1 else mapFind k rest

/-- Insertion (with overwrite) into an association list kept sorted by
`ridLt`; models `BTreeMap::insert`. -/
def mapInsert {α : Type} (k : RoundIdentifier) (v : α) :
    List (RoundIdentifier × α) → List (RoundIdentifier × α)
  | [] => [(k, v)]
  | (k1, v1) :: rest =>
    if ridLt k k1 then (k, v) :: (k1, v1) :: rest
    else if k = k1 then (k, v) :: rest
    else (k1, v1) :: mapInsert k v rest

/-- Models the `promises`/`accepts` update pattern of `on_msg`: insert `src`
into the set stored at `rid`, creating a fresh singleton set when absent. -/
def addToSetMap (k : RoundIdentifier) (x : Nat)
    (m : List (RoundIdentifier × List Nat)) : List (RoundIdentifier × List Nat) :=
  match mapFind k m with
  | some s => mapInsert k (listInsert x s) m
  | none => mapInsert k [x] m

/-- Mirrors `struct PaxosState`. -/
structure PaxosState where
  id : Nat
  round : Nat
  prepare_data : List (RoundIdentifier × RegisterValue)
  promises : List (RoundIdentifier × List Nat)
  accepts : List (RoundIdentifier × List Nat)
  last_seen : Option RoundIdentifier
  value : Option RegisterValue
  decided : Bool
deriving DecidableEq, Repr

/-- Mirrors `PaxosState::next_round`: `self.round += 1` on a `u32` (wrapping
modelled by `% 2 ^ 32`), returning the freshly minted `RoundIdentifier`. -/
def PaxosState.next_round (s : PaxosState) : RoundIdentifier × PaxosState :=
  let r := (s.round + 1) % 2 ^ 32
  ({ round_num := r, id := s.id }, { s with round := r })

/-- Mirrors `Actor::on_start` for `PaxosActor`. -/
def on_start (id : Nat) : PaxosState :=
  { id := id
    round := 0
    prepare_data := []
    promises := []
    accepts := []
    last_seen := none
    value := none
    decided := false }

/-- Models `o.broadcast(&self.peers, &msg)`: one send per peer, in peer-list
order.  Outbound messages are (destination, message) pairs. -/
def broadcast (peers : List Nat) (m : RegisterMsg) : List (Nat × RegisterMsg) :=
  peers.map (fun p => (p, m))

/-- Mirrors `PaxosActor::on_msg` (lines 92-211 of `main.rs`): given the
actor's fixed `peers` list, the current state, the envelope's sender `src`
and the message, produce the new state and the outbound messages. -/
def on_msg (peers : List Nat) (state : PaxosState) (src : Nat) (msg : RegisterMsg) :
    PaxosState × List (Nat × RegisterMsg) :=
  match msg with
  | .Internal internal_msg =>
    match internal_msg with
    | .Prepare request_id org_sender rid =>
      if state.decided then (state, [])
      else
        let greater := match state.last_seen with
          | some val => ridLt val rid
          | none => true
        if greater then
          ({ state with last_seen := some rid },
           [(src, .Internal (.Promise request_id org_sender rid))])
        else
          (state, [])
    | .Promise request_id org_sender rid =>
      if state.decided then (state, [])
      else
        let state1 := { state with promises := addToSetMap rid src state.promises }
        match mapFind rid state1.prepare_data with
        | none => (state1, [])
        | some value =>
          let count := match mapFind rid state1.promises with
            | some s => s.length
            | none => 0
          let num_peers := peers.length
          if count > num_peers / 2 then
            (state1, broadcast peers (.Internal (.Accept request_id org_sender rid value)))
          else
            (state1, [])
    | .Accept request_id org_sender rid value =>
      if state.decided then (state, [])
      else if some rid = state.last_seen then
        (state, broadcast peers (.Internal (.Accepted request_id org_sender rid value)))
      else
        (state, [])
    | .Accepted request_id org_sender rid value =>
      if state.decided then (state, [])
      else
        let state1 := { state with accepts := addToSetMap rid src state.accepts }
        let count := match mapFind rid state1.accepts with
          | some s => s.length
          | none => 0
        let num_peers := peers.length
        if count > num_peers / 2 then
          ({ state1 with value := some value, decided := true },
           [(org_sender, .PutOk request_id)])
        else
          (state1, [])
  | .Put request_id value =>
    let rs := state.next_round
    let state2 := { rs.2 with prepare_data := mapInsert rs.1 value rs.2.prepare_data }
    (state2, broadcast peers (.Internal (.Prepare request_id src rs.1)))
  | _ => (state, [])

/-- Mirrors stateright's `model_peers(self_ix, count)`, used at line 234 of
`main.rs` to build each server's peer list: the ids of all actors in the
system other than the actor itself. -/
def model_peers (self_ix count : Nat) : List Nat :=
  (List.range count).filter (fun j => j ≠ self_ix)

/-- The majority formula as the spec words it: `count > peerCount / 2`
(integer division). -/
def isMajority (count peerCount : Nat) : Bool :=
  decide (count > peerCount / 2)

/-- A message in flight (or already delivered): sender, destination,
payload. -/
structure Envelope where
  src : Nat
  dst : Nat
  msg : RegisterMsg
deriving DecidableEq, Repr

/-- Global configuration of the 3-server system built by `main()`
(`server_count = 3`): per-node states plus the monotone log of every
envelope ever sent.  Duplication, reordering and loss are modelled by
letting any logged envelope be delivered at any time, any number of times,
or never. -/
structure Config where
  states : Nat → PaxosState
  sent : List Envelope

/-- Peer list of server `n` in the 3-server system, as `into_model` builds
it. -/
def peersOf (n : Nat) : List Nat :=
  model_peers n 3

/-- Deliver envelope `e` to its destination, applying `on_msg` and logging
the outbound messages. -/
def deliverAt (c : Config) (e : Envelope) : Config :=
  let res := on_msg (peersOf e.dst) (c.states e.dst) e.src e.msg
  { states := fun n => if n = e.dst then res.1 else c.states n
    sent := c.sent ++ res.2.map (fun pm => { src := e.dst, dst := pm.1, msg := pm.2 }) }

/-- One network step: any already-sent envelope addressed to a server may be
delivered (again). -/
inductive Step : Config → Config → Prop
  | deliver (c : Config) (e : Envelope) (he : e ∈ c.sent) (hdst : e.dst < 3) :
      Step c (deliverAt c e)

/-- Reflexive-transitive closure of `Step`. -/
inductive Reachable (c0 : Config) : Config → Prop
  | refl : Reachable c0 c0
  | step {c d : Config} : Reachable c0 c → Step c d → Reachable c0 d

/-- Initial configuration: fresh server states, with the client `Put`
envelopes of the execution pre-loaded in the network. -/
def init (puts : List Envelope) : Config :=
  { states := on_start, sent := puts }

/-- Run a schedule of deliveries. -/
def run (c : Config) : List Envelope → Config
  | [] => c
  | e :: es => run (deliverAt c e) es

/-- A schedule is valid from `c` when every delivered envelope has already
been sent at its delivery time and is addressed to a server. -/
def validSched (c : Config) : List Envelope → Bool
  | [] => true
  | e :: es => (decide (e ∈ c.sent) && decide (e.dst < 3)) && validSched (deliverAt c e) es

/-- A per-instance state that has already decided value `x` with a promise
on record, for exercising the post-decision behaviour of `on_msg`. -/
def decidedState : PaxosState :=
  { on_start 0 with
      decided := true
      value := some 'x'
      last_seen := some { round_num := 1, id := 0 }
      round := 1
      prepare_data := [({ round_num := 1, id := 0 }, 'x')] }

/-- A state of server 0 in a 4-server system mid-Prepare-round: it proposed
the ballot `(1,0)` with pending value `x` and holds one promise (from
server 1). -/
def fourState : PaxosState :=
  { on_start 0 with
      round := 1
      prepare_data := [({ round_num := 1, id := 0 }, 'x')]
      promises := [({ round_num := 1, id := 0 }, [1])] }

/-- An undecided acceptor state of server 2 whose highest promise is ballot
`(1,0)`. -/
def demoAccState : PaxosState :=
  { on_start 2 with last_seen := some { round_num := 1, id := 0 } }

/-- Ballot minted by server 0 for its first `Put` (round 1, node 0). -/
def rid1 : RoundIdentifier := { round_num := 1, id := 0 }

/-- Ballot minted by server 1 for its first `Put` (round 1, node 1);
`rid1 < rid2` under the code's `Ord`. -/
def rid2 : RoundIdentifier := { round_num := 1, id := 1 }

/-- Two competing client writes: client 3 asks server 0 to write `x`,
client 4 asks server 1 to write `y`. -/
def tracePuts : List Envelope :=
  [ { src := 3, dst := 0, msg := .Put 10 'x' },
    { src := 4, dst := 1, msg := .Put 20 'y' } ]

/-- A legal delivery schedule (every delivered envelope was sent earlier)
in which server 0 completes ballot `rid1` for value `x` while server 1
completes the higher ballot `rid2` for value `y`: the two `Accepted` replies
for `rid1` are simply delayed until after server 1 has decided. -/
def traceSched : List Envelope :=
  [ { src := 3, dst := 0, msg := .Put 10 'x' },
    { src := 4, dst := 1, msg := .Put 20 'y' },
    { src := 0, dst := 1, msg := .Internal (.Prepare 10 3 rid1) },
    { src := 0, dst := 2, msg := .Internal (.Prepare 10 3 rid1) },
    { src := 1, dst := 0, msg := .Internal (.Promise 10 3 rid1) },
    { src := 2, dst := 0, msg := .Internal (.Promise 10 3 rid1) },
    { src := 0, dst := 1, msg := .Internal (.Accept 10 3 rid1 'x') },
    { src := 0, dst := 2, msg := .Internal (.Accept 10 3 rid1 'x') },
    { src := 1, dst := 0, msg := .Internal (.Prepare 20 4 rid2) },
    { src := 1, dst := 2, msg := .Internal (.Prepare 20 4 rid2) },
    { src := 0, dst := 1, msg := .Internal (.Promise 20 4 rid2) },
    { src := 2, dst := 1, msg := .Internal (.Promise 20 4 rid2) },
    { src := 1, dst := 0, msg := .Internal (.Accept 20 4 rid2 'y') },
    { src := 1, dst := 2, msg := .Internal (.Accept 20 4 rid2 'y') },
    { src := 0, dst := 1, msg := .Internal (.Accepted 20 4 rid2 'y') },
    { src := 2, dst := 1, msg := .Internal (.Accepted 20 4 rid2 'y') },
    { src := 1, dst := 0, msg := .Internal (.Accepted 10 3 rid1 'x') },
    { src := 2, dst := 0, msg := .Internal (.Accepted 10 3 rid1 'x') } ]

/-- Request id carried by a protocol message. -/
def PaxosMsg.req : PaxosMsg → Nat
  | .Prepare r _ _ => r
  | .Promise r _ _ => r
  | .Accept r _ _ _ => r
  | .Accepted r _ _ _ => r

/-- Round identifier carried by a protocol message. -/
def PaxosMsg.rid : PaxosMsg → RoundIdentifier
  | .Prepare _ _ rid => rid
  | .Promise _ _ rid => rid
  | .Accept _ _ rid _ => rid
  | .Accepted _ _ rid _ => rid

/-- Recognizer for client write requests. -/
def isPutMsg : RegisterMsg → Bool
  | .Put _ _ => true
  | _ => false

/-- Request id of a `Put`, if any. -/
def reqOfMsg : RegisterMsg → Option Nat
  | .Put r _ => some r
  | _ => none

/-- Number of `PutOk` responses for request id `r` in the message log. -/
def countPutOk (sent : List Envelope) (r : Nat) : Nat :=
  (sent.filter (fun e => e.msg = RegisterMsg.PutOk r)).length

/-- Well-formedness of the pre-loaded client requests: every entry is a
`Put` addressed to a server, and requests sharing a correlation id target
the same server (in the stateright model every request id is globally
unique, which implies this). -/
def PutsOk (puts : List Envelope) : Prop :=
  (∀ e ∈ puts, isPutMsg e.msg = true ∧ e.dst < 3)
  ∧ ∀ e1 ∈ puts, ∀ e2 ∈ puts, reqOfMsg e1.msg = reqOfMsg e2.msg → e1.dst = e2.dst

/-- Inductive invariant of the 3-server system carrying the at-most-one-
response property through every reachable configuration. -/
structure Inv (puts : List Envelope) (c : Config) : Prop where
  puts_only : ∀ e ∈ c.sent, ∀ r v, e.msg = RegisterMsg.Put r v → e ∈ puts
  ids_ok : ∀ n, n < 3 → (c.states n).id = n
  pd_ok : ∀ n, n < 3 → ∀ rid v, mapFind rid (c.states n).prepare_data = some v → rid.id = n
  traced : ∀ e ∈ c.sent, ∀ im, e.msg = RegisterMsg.Internal im →
      ∃ p ∈ puts, ∃ v, p.msg = RegisterMsg.Put im.req v ∧ p.dst = im.rid.id
  accept_src : ∀ e ∈ c.sent, ∀ r o rid v,
      e.msg = RegisterMsg.Internal (PaxosMsg.Accept r o rid v) →
      e.src = rid.id ∧ e.dst ≠ rid.id ∧ e.dst < 3
  accepted_src : ∀ e ∈ c.sent, ∀ r o rid v,
      e.msg = RegisterMsg.Internal (PaxosMsg.Accepted r o rid v) →
      e.src ≠ rid.id ∧ e.src < 3 ∧ e.dst ≠ e.src
  acc_sets : ∀ n, n < 3 → ∀ rid l, mapFind rid (c.states n).accepts = some l →
      l.Pairwise (· < ·) ∧ ∀ a ∈ l, a < 3 ∧ a ≠ rid.id ∧ a ≠ n
  putok_le : ∀ r, countPutOk c.sent r ≤ 1
  putok_decided : ∀ e ∈ c.sent, ∀ r, e.msg = RegisterMsg.PutOk r →
      ∀ p ∈ puts, ∀ v, p.msg = RegisterMsg.Put r v → (c.states p.dst).decided = true

theorem reachable_trans_step {c d e : Config} (h1 : Step c d) (h2 : Reachable d e) :
    Reachable c e := by
  induction h2 with
  | refl => exact Reachable.step Reachable.refl h1
  | step _ hs ih => exact Reachable.step ih hs

theorem reachable_run (sched : List Envelope) :
    ∀ c : Config, validSched c sched = true → Reachable c (run c sched) := by
  induction sched with
  | nil => intro c _; exact Reachable.refl
  | cons e es ih =>
    intro c h
    simp only [validSched, Bool.and_eq_true, decide_eq_true_eq] at h
    exact reachable_trans_step (Step.deliver c e h.1.1 h.1.2) (ih (deliverAt c e) h.2)

/-- C1: the claim "at most one distinct value is ever decided for a single
instance" FAILS on the code.  In the reachable execution `traceSched`
(two competing proposers, all deliveries legal, no duplication needed),
server 0 ends with `decided = true, value = x` while server 1 ends with
`decided = true, value = y`.  The root cause is that `Promise` messages
carry no previously-accepted value, so a higher ballot freely overwrites a
quorum-visible lower ballot. -/
theorem two_values_decided :
    ∃ c : Config, Reachable (init tracePuts) c ∧
      (c.states 0).decided = true ∧ (c.states 0).value = some 'x' ∧
      (c.states 1).decided = true ∧ (c.states 1).value = some 'y' ∧
      (c.states 0).value ≠ (c.states 1).value := by
  refine ⟨run (init tracePuts) traceSched,
    reachable_run traceSched (init tracePuts) (by decide), ?_, ?_, ?_, ?_, ?_⟩ <;> decide

/-- C2: the mandatory value-adoption rule FAILS on the code.  In the same
reachable execution, acceptor 2 accepts `(rid1, x)` (it broadcasts
`Accepted(rid1, x)`), later grants a promise for the strictly higher ballot
`rid2`, and acceptor 2's accepted ballot is the highest one in that Prepare
round — yet every `Accept` the proposer of `rid2` broadcasts carries its own
pending value `y`, not `x`.  Indeed the `Promise` message type has no field
in which an accepted `(ballot, value)` pair could even be reported. -/
theorem no_value_adoption :
    ∃ c : Config, Reachable (init tracePuts) c ∧
      Envelope.mk 2 0 (.Internal (.Accepted 10 3 rid1 'x')) ∈ c.sent ∧
      Envelope.mk 2 1 (.Internal (.Promise 20 4 rid2)) ∈ c.sent ∧
      ridLt rid1 rid2 = true ∧
      c.sent.filter (fun e => match e.msg with
        | RegisterMsg.Internal (PaxosMsg.Accept _ _ r _) => r = rid2
        | _ => false) =
        [ Envelope.mk 1 0 (.Internal (.Accept 20 4 rid2 'y')),
          Envelope.mk 1 2 (.Internal (.Accept 20 4 rid2 'y')) ] := by
  refine ⟨run (init tracePuts) traceSched,
    reachable_run traceSched (init tracePuts) (by decide), ?_, ?_, ?_, ?_⟩ <;> decide



theorem ridLt_irrefl (a : RoundIdentifier) : ridLt a a = false := by
  simp [ridLt]

theorem listInsert_idem (x : Nat) (l : List Nat) :
    listInsert x (listInsert x l) = listInsert x l := by
  induction l with
  | nil => simp [listInsert]
  | cons y ys ih =>
    by_cases h1 : x < y
    · simp [listInsert, h1, Nat.lt_irrefl]
    · by_cases h2 : x = y
      · simp [listInsert, h1, h2]
      · simp [listInsert, h1, h2, ih]

theorem mapFind_mapInsert_self {α : Type} (k : RoundIdentifier) (v : α)
    (m : List (RoundIdentifier × α)) : mapFind k (mapInsert k v m) = some v := by
  induction m with
  | nil => simp [mapInsert, mapFind]
  | cons p rest ih =>
    obtain ⟨k1, v1⟩ := p
    by_cases h1 : ridLt k k1
    · simp [mapInsert, h1, mapFind]
    · by_cases h2 : k = k1
      · subst h2; simp [mapInsert, h1, ridLt_irrefl, mapFind]
      · simp [mapInsert, h1, h2, mapFind, ih]

theorem mapFind_mapInsert_ne {α : Type} (k k2 : RoundIdentifier) (v : α)
    (m : List (RoundIdentifier × α)) (hne : k2 ≠ k) :
    mapFind k2 (mapInsert k v m) = mapFind k2 m := by
  induction m with
  | nil => simp [mapInsert, mapFind, hne]
  | cons p rest ih =>
    obtain ⟨k1, v1⟩ := p
    by_cases h1 : ridLt k k1
    · simp [mapInsert, h1, mapFind, hne]
    · by_cases h2 : k = k1
      · subst h2; simp [mapInsert, h1, mapFind, hne]
      · simp [mapInsert, h1, h2, mapFind, ih]

theorem mapInsert_mapInsert {α : Type} (k : RoundIdentifier) (v w : α)
    (m : List (RoundIdentifier × α)) :
    mapInsert k v (mapInsert k w m) = mapInsert k v m := by
  induction m with
  | nil => simp [mapInsert, ridLt_irrefl]
  | cons p rest ih =>
    obtain ⟨k1, v1⟩ := p
    by_cases h1 : ridLt k k1
    · simp [mapInsert, h1, ridLt_irrefl]
    · by_cases h2 : k = k1
      · simp [mapInsert, h1, h2, ridLt_irrefl]
      · simp [mapInsert, h1, h2, ih]

theorem addToSetMap_idem (k : RoundIdentifier) (x : Nat)
    (m : List (RoundIdentifier × List Nat)) :
    addToSetMap k x (addToSetMap k x m) = addToSetMap k x m := by
  unfold addToSetMap
  cases hf : mapFind k m with
  | none =>
    simp only [mapFind_mapInsert_self]
    simp [listInsert, mapInsert_mapInsert]
  | some s =>
    simp only [mapFind_mapInsert_self]
    simp [listInsert_idem, mapInsert_mapInsert]

theorem mapFind_addToSetMap_self (k : RoundIdentifier) (x : Nat)
    (m : List (RoundIdentifier × List Nat)) :
    mapFind k (addToSetMap k x m) =
      some (match mapFind k m with | some s => listInsert x s | none => [x]) := by
  unfold addToSetMap
  cases hf : mapFind k m with
  | none => simp only [mapFind_mapInsert_self]
  | some s => simp only [mapFind_mapInsert_self]

theorem mapFind_addToSetMap_ne (k k2 : RoundIdentifier) (x : Nat)
    (m : List (RoundIdentifier × List Nat)) (hne : k2 ≠ k) :
    mapFind k2 (addToSetMap k x m) = mapFind k2 m := by
  unfold addToSetMap
  cases mapFind k m with
  | none => exact mapFind_mapInsert_ne k k2 _ m hne
  | some s => exact mapFind_mapInsert_ne k k2 _ m hne

theorem listInsert_mem (x a : Nat) (l : List Nat) (h : a ∈ listInsert x l) :
    a = x ∨ a ∈ l := by
  induction l with
  | nil => simpa [listInsert] using h
  | cons y ys ih =>
    by_cases h1 : x < y
    · simp only [listInsert, if_pos h1] at h
      rcases List.mem_cons.mp h with h | h
      · exact Or.inl h
      · exact Or.inr h
    · by_cases h2 : x = y
      · simp only [listInsert, if_neg h1, if_pos h2] at h
        exact Or.inr h
      · simp only [listInsert, if_neg h1, if_neg h2] at h
        rcases List.mem_cons.mp h with h | h
        · exact Or.inr (by simp [h])
        · rcases ih h with h3 | h3
          · exact Or.inl h3
          · exact Or.inr (List.mem_cons_of_mem y h3)

theorem listInsert_sorted (x : Nat) (l : List Nat) (h : l.Pairwise (· < ·)) :
    (listInsert x l).Pairwise (· < ·) := by
  induction l with
  | nil => simp [listInsert]
  | cons y ys ih =>
    rcases List.pairwise_cons.mp h with ⟨hy, hys⟩
    by_cases h1 : x < y
    · simp only [listInsert, if_pos h1]
      refine List.pairwise_cons.mpr ⟨?_, h⟩
      intro a ha
      rcases List.mem_cons.mp ha with rfl | ha
      · exact h1
      · exact Nat.lt_trans h1 (hy a ha)
    · by_cases h2 : x = y
      · simpa [listInsert, h1, h2] using h
      · simp only [listInsert, if_neg h1, if_neg h2]
        refine List.pairwise_cons.mpr ⟨?_, ih hys⟩
        intro a ha
        rcases listInsert_mem x a ys ha with rfl | ha
        · omega
        · exact hy a ha

theorem sorted_all_eq_length_le_one (l : List Nat) (z : Nat)
    (hs : l.Pairwise (· < ·)) (hall : ∀ a ∈ l, a = z) : l.length ≤ 1 := by
  match l with
  | [] => simp
  | [a] => simp
  | a :: b :: rest =>
    exfalso
    have ha : a = z := hall a (by simp)
    have hb : b = z := hall b (by simp)
    have := (List.pairwise_cons.mp hs).1 b (by simp)
    omega

/-- Any delivered `Internal` message leaves a decided state untouched and
produces no output: all four protocol handlers return early on
`state.decided`. -/
theorem on_msg_internal_decided (peers : List Nat) (s : PaxosState) (src : Nat)
    (im : PaxosMsg) (hd : s.decided = true) :
    on_msg peers s src (.Internal im) = (s, []) := by
  obtain ⟨i, ro, pd, pr, ac, ls, v, d⟩ := s
  cases d
  · cases hd
  · cases im <;> rfl

/-- Shape of the `Prepare` handler on an undecided state. -/
theorem on_msg_prepare_undecided (peers : List Nat) (s : PaxosState) (src r o : Nat)
    (rid : RoundIdentifier) (hd : s.decided = false) :
    on_msg peers s src (.Internal (.Prepare r o rid)) =
      if (match s.last_seen with | some val => ridLt val rid | none => true)
      then ({ s with last_seen := some rid }, [(src, .Internal (.Promise r o rid))])
      else (s, []) := by
  obtain ⟨i, ro, pd, pr, ac, ls, v, d⟩ := s
  cases d
  · rfl
  · cases hd

/-- Shape of the `Promise` handler on an undecided state. -/
theorem on_msg_promise_undecided (peers : List Nat) (s : PaxosState) (src r o : Nat)
    (rid : RoundIdentifier) (hd : s.decided = false) :
    on_msg peers s src (.Internal (.Promise r o rid)) =
      match mapFind rid s.prepare_data with
      | none => ({ s with promises := addToSetMap rid src s.promises }, [])
      | some value =>
        if (match mapFind rid (addToSetMap rid src s.promises) with
             | some l => l.length | none => 0) > peers.length / 2
        then ({ s with promises := addToSetMap rid src s.promises },
              broadcast peers (.Internal (.Accept r o rid value)))
        else ({ s with promises := addToSetMap rid src s.promises }, []) := by
  obtain ⟨i, ro, pd, pr, ac, ls, v, d⟩ := s
  cases d
  · rfl
  · cases hd

/-- Shape of the `Accept` handler on an undecided state. -/
theorem on_msg_accept_undecided (peers : List Nat) (s : PaxosState) (src r o : Nat)
    (rid : RoundIdentifier) (v : RegisterValue) (hd : s.decided = false) :
    on_msg peers s src (.Internal (.Accept r o rid v)) =
      if some rid = s.last_seen
      then (s, broadcast peers (.Internal (.Accepted r o rid v)))
      else (s, []) := by
  obtain ⟨i, ro, pd, pr, ac, ls, w, d⟩ := s
  cases d
  · rfl
  · cases hd

/-- Shape of the `Accepted` handler on an undecided state. -/
theorem on_msg_accepted_undecided (peers : List Nat) (s : PaxosState) (src r o : Nat)
    (rid : RoundIdentifier) (v : RegisterValue) (hd : s.decided = false) :
    on_msg peers s src (.Internal (.Accepted r o rid v)) =
      if (match mapFind rid (addToSetMap rid src s.accepts) with
           | some l => l.length | none => 0) > peers.length / 2
      then ({ s with
                accepts := addToSetMap rid src s.accepts
                value := some v
                decided := true },
            [(o, .PutOk r)])
      else ({ s with accepts := addToSetMap rid src s.accepts }, []) := by
  obtain ⟨i, ro, pd, pr, ac, ls, w, d⟩ := s
  cases d
  · rfl
  · cases hd

/-- Shape of the `Put` handler (note: it does not check `decided`). -/
theorem on_msg_put (peers : List Nat) (s : PaxosState) (src r : Nat) (v : RegisterValue) :
    on_msg peers s src (.Put r v) =
      ({ s with
           round := (s.round + 1) % 2 ^ 32
           prepare_data := mapInsert { round_num := (s.round + 1) % 2 ^ 32, id := s.id } v
             s.prepare_data },
       broadcast peers (.Internal (.Prepare r src { round_num := (s.round + 1) % 2 ^ 32, id := s.id }))) := rfl

/-- C10: a client `Get` delivered to a server falls into the catch-all arm
of `on_msg`: the state is unchanged and no message is emitted — servers
never answer read requests; only `Put` and `Internal` messages are acted
on. -/
theorem get_ignored (peers : List Nat) (s : PaxosState) (src r : Nat) :
    on_msg peers s src (.Get r) = (s, []) := rfl

/-- C5: ballot minting is monotone and collision-free: two successive
`next_round` calls on one node (below the `u32` wrap) yield strictly
increasing ballots under the code's `RoundIdentifier` order, and mint
operations on nodes with distinct ids can never return equal ballots. -/
theorem ballots_monotone_unique :
    (∀ s : PaxosState, s.round + 2 < 2 ^ 32 →
      ridLt s.next_round.1 s.next_round.2.next_round.1 = true)
    ∧ (∀ s t : PaxosState, s.id ≠ t.id → s.next_round.1 ≠ t.next_round.1) := by
  constructor
  · intro s h
    simp [PaxosState.next_round, ridLt]
    omega
  · intro s t hne h
    exact hne (congrArg RoundIdentifier.id h)

theorem ballots_monotone_unique_witness :
    ridLt (on_start 0).next_round.1 (on_start 0).next_round.2.next_round.1 = true
    ∧ (on_start 0).next_round.1 ≠ (on_start 1).next_round.1 :=
  ⟨ballots_monotone_unique.1 (on_start 0) (by decide),
   ballots_monotone_unique.2 (on_start 0) (on_start 1) (by decide)⟩


/-- C6: acceptor regression-freedom.  (1) The highest promise `last_seen`
is changed only by the `Prepare` handler, and only to a ballot strictly
above the previous one (or from unset).  (2) An `Accepted` message is
emitted only while handling an `Accept` whose ballot exactly equals the
node's current `last_seen`, on an undecided node — so an acceptor never
accepts a ballot lower than its highest promise. -/
theorem acceptor_regression_freedom (peers : List Nat) (s : PaxosState) (src : Nat)
    (m : RegisterMsg) :
    ((on_msg peers s src m).1.last_seen = s.last_seen
      ∨ ∃ request_id org_sender rid, m = .Internal (.Prepare request_id org_sender rid)
          ∧ (on_msg peers s src m).1.last_seen = some rid
          ∧ (∀ old, s.last_seen = some old → ridLt old rid = true))
    ∧ (∀ dst request_id org_sender rid v,
        (dst, RegisterMsg.Internal (.Accepted request_id org_sender rid v))
            ∈ (on_msg peers s src m).2
        → s.last_seen = some rid ∧ s.decided = false) := by
  constructor
  · match m with
    | .Internal (.Prepare r1 o1 rid1) =>
      cases hd : s.decided with
      | true => left; rw [on_msg_internal_decided peers s src _ hd]
      | false =>
        rw [on_msg_prepare_undecided peers s src r1 o1 rid1 hd]
        cases hl : s.last_seen with
        | none =>
          right
          refine ⟨r1, o1, rid1, rfl, by simp [hl], ?_⟩
          intro o ho
          cases ho
        | some old =>
          cases hg : ridLt old rid1 with
          | true =>
            right
            refine ⟨r1, o1, rid1, rfl, by simp [hl, hg], ?_⟩
            intro o ho
            cases ho
            exact hg
          | false => left; simp [hl, hg]
    | .Internal (.Promise r1 o1 rid1) =>
      left
      cases hd : s.decided with
      | true => rw [on_msg_internal_decided peers s src _ hd]
      | false =>
        rw [on_msg_promise_undecided peers s src r1 o1 rid1 hd]
        split
        · rfl
        · split <;> rfl
    | .Internal (.Accept r1 o1 rid1 w) =>
      left
      cases hd : s.decided with
      | true => rw [on_msg_internal_decided peers s src _ hd]
      | false =>
        rw [on_msg_accept_undecided peers s src r1 o1 rid1 w hd]
        split <;> rfl
    | .Internal (.Accepted r1 o1 rid1 w) =>
      left
      cases hd : s.decided with
      | true => rw [on_msg_internal_decided peers s src _ hd]
      | false =>
        rw [on_msg_accepted_undecided peers s src r1 o1 rid1 w hd]
        split <;> rfl
    | .Put r1 w => left; rw [on_msg_put]
    | .Get r1 => left; rfl
    | .PutOk r1 => left; rfl
    | .GetOk r1 w => left; rfl
  · intro dst request_id org_sender rid v hmem
    match m with
    | .Internal (.Prepare r1 o1 rid1) =>
      exfalso
      cases hd : s.decided with
      | true => rw [on_msg_internal_decided peers s src _ hd] at hmem; simp at hmem
      | false =>
        rw [on_msg_prepare_undecided peers s src r1 o1 rid1 hd] at hmem
        split at hmem <;> simp at hmem
    | .Internal (.Promise r1 o1 rid1) =>
      exfalso
      cases hd : s.decided with
      | true => rw [on_msg_internal_decided peers s src _ hd] at hmem; simp at hmem
      | false =>
        rw [on_msg_promise_undecided peers s src r1 o1 rid1 hd] at hmem
        split at hmem
        · simp at hmem
        · split at hmem <;> simp [broadcast] at hmem
    | .Internal (.Accept r1 o1 rid1 w) =>
      cases hd : s.decided with
      | true => rw [on_msg_internal_decided peers s src _ hd] at hmem; simp at hmem
      | false =>
        rw [on_msg_accept_undecided peers s src r1 o1 rid1 w hd] at hmem
        split at hmem
        · next he =>
          simp only [broadcast, List.mem_map] at hmem
          obtain ⟨p, _, hp⟩ := hmem
          have hmsg : (RegisterMsg.Internal (PaxosMsg.Accepted r1 o1 rid1 w) : RegisterMsg)
              = RegisterMsg.Internal (PaxosMsg.Accepted request_id org_sender rid v) :=
            congrArg Prod.snd hp
          cases hmsg
          exact ⟨he.symm, by simp [hd]⟩
        · simp at hmem
    | .Internal (.Accepted r1 o1 rid1 w) =>
      exfalso
      cases hd : s.decided with
      | true => rw [on_msg_internal_decided peers s src _ hd] at hmem; simp at hmem
      | false =>
        rw [on_msg_accepted_undecided peers s src r1 o1 rid1 w hd] at hmem
        split at hmem <;> simp at hmem
    | .Put r1 w =>
      exfalso
      rw [on_msg_put] at hmem
      simp [broadcast] at hmem
    | .Get r1 => exact absurd hmem (by simp [on_msg])
    | .PutOk r1 => exact absurd hmem (by simp [on_msg])
    | .GetOk r1 w => exact absurd hmem (by simp [on_msg])

theorem acceptor_regression_freedom_witness :
    demoAccState.last_seen = some { round_num := 1, id := 0 }
    ∧ demoAccState.decided = false := by
  have h := acceptor_regression_freedom (peersOf 2) demoAccState 0
    (.Internal (.Accept 10 3 { round_num := 1, id := 0 } 'x'))
  exact h.2 0 10 3 { round_num := 1, id := 0 } 'x' (by decide)

/-- C7 counterexample: the claim "once decided, every subsequently
delivered message leaves every field of the state unchanged" is FALSE:
the `Put` handler does not check `decided`, so delivering a client `Put`
to a decided node still increments `round` and inserts into
`prepare_data`. -/
theorem decided_put_mutates :
    decidedState.decided = true
    ∧ (on_msg (peersOf 0) decidedState 3 (.Put 9 'z')).1 ≠ decidedState
    ∧ (on_msg (peersOf 0) decidedState 3 (.Put 9 'z')).1.round ≠ decidedState.round := by
  refine ⟨rfl, ?_, ?_⟩ <;> decide

/-- C7 amended: once a node has `decided = true`, every internal protocol
message is ignored (state unchanged, nothing emitted), as are `Get`,
`PutOk` and `GetOk`; a client `Put`, however, still mutates `round` and
`prepare_data` and broadcasts a `Prepare` — but it leaves `decided`,
`value`, `last_seen`, `promises` and `accepts` unchanged, so the decision
itself never reopens. -/
theorem decided_frame (peers : List Nat) (s : PaxosState) (src : Nat)
    (hd : s.decided = true) :
    (∀ im : PaxosMsg, on_msg peers s src (.Internal im) = (s, []))
    ∧ (∀ r v, (on_msg peers s src (.Put r v)).1.decided = true
        ∧ (on_msg peers s src (.Put r v)).1.value = s.value
        ∧ (on_msg peers s src (.Put r v)).1.last_seen = s.last_seen
        ∧ (on_msg peers s src (.Put r v)).1.promises = s.promises
        ∧ (on_msg peers s src (.Put r v)).1.accepts = s.accepts)
    ∧ (∀ r, on_msg peers s src (.Get r) = (s, []))
    ∧ (∀ r, on_msg peers s src (.PutOk r) = (s, []))
    ∧ (∀ r v, on_msg peers s src (.GetOk r v) = (s, [])) := by
  refine ⟨fun im => on_msg_internal_decided peers s src im hd, ?_,
    fun r => rfl, fun r => rfl, fun r v => rfl⟩
  intro r v
  rw [on_msg_put]
  exact ⟨hd, rfl, rfl, rfl, rfl⟩

theorem decided_frame_witness :
    on_msg (peersOf 0) decidedState 1
        (.Internal (.Prepare 20 4 { round_num := 1, id := 1 })) = (decidedState, []) :=
  (decided_frame (peersOf 0) decidedState 1 rfl).1 (.Prepare 20 4 { round_num := 1, id := 1 })

/-- C8 counterexample: the claim that a `Promise` for a ballot the node
never proposed "leaves the node's state unchanged" is FALSE: the handler
records the sender in the `promises` tally before discovering that
`prepare_data` has no entry for the ballot. -/
theorem orphan_promise_mutates :
    mapFind { round_num := 1, id := 1 } (on_start 0).prepare_data = none
    ∧ (on_msg (peersOf 0) (on_start 0) 1
        (.Internal (.Promise 20 4 { round_num := 1, id := 1 }))).1 ≠ on_start 0 := by
  refine ⟨rfl, ?_⟩
  decide

/-- C8 amended: a `Promise` for a ballot with no `prepare_data` entry (a
ballot this node has no record of having proposed) produces no outbound
message, but the sender is still recorded in the `promises` tally, so the
state does change; an `Accepted` is tallied the same way regardless of
whether the ballot was proposed locally, and while the tally stays at or
below the majority threshold it emits nothing either. -/
theorem orphan_response_amended (peers : List Nat) (s : PaxosState) (src r o : Nat)
    (rid : RoundIdentifier) (hd : s.decided = false)
    (hf : mapFind rid s.prepare_data = none) :
    on_msg peers s src (.Internal (.Promise r o rid))
      = ({ s with promises := addToSetMap rid src s.promises }, [])
    ∧ (∀ v, ¬((match mapFind rid (addToSetMap rid src s.accepts) with
          | some l => l.length | none => 0) > peers.length / 2) →
        on_msg peers s src (.Internal (.Accepted r o rid v))
          = ({ s with accepts := addToSetMap rid src s.accepts }, [])) := by
  constructor
  · rw [on_msg_promise_undecided peers s src r o rid hd, hf]
  · intro v hc
    rw [on_msg_accepted_undecided peers s src r o rid v hd, if_neg hc]

theorem orphan_response_amended_witness :
    on_msg (peersOf 0) (on_start 0) 1
        (.Internal (.Promise 20 4 { round_num := 1, id := 1 }))
      = ({ on_start 0 with
            promises := addToSetMap { round_num := 1, id := 1 } 1 (on_start 0).promises }, []) :=
  (orphan_response_amended (peersOf 0) (on_start 0) 1 20 4
    { round_num := 1, id := 1 } rfl rfl).1

/-- C9: redelivering an identical `Promise` or `Accepted` message (same
sender, same contents) leaves the state exactly where the first delivery
put it: set insertion is idempotent, and a decision made on the first
delivery makes the second a no-op. -/
theorem redelivery_idempotent (peers : List Nat) (s : PaxosState) (src r o : Nat)
    (rid : RoundIdentifier) (v : RegisterValue) :
    ((on_msg peers
        (on_msg peers s src (.Internal (.Promise r o rid))).1 src
        (.Internal (.Promise r o rid))).1
      = (on_msg peers s src (.Internal (.Promise r o rid))).1)
    ∧ ((on_msg peers
        (on_msg peers s src (.Internal (.Accepted r o rid v))).1 src
        (.Internal (.Accepted r o rid v))).1
      = (on_msg peers s src (.Internal (.Accepted r o rid v))).1) := by
  constructor
  · cases hd : s.decided with
    | true =>
      rw [on_msg_internal_decided peers s src _ hd]
      rw [on_msg_internal_decided peers s src _ hd]
    | false =>
      have hfst : (on_msg peers s src (.Internal (.Promise r o rid))).1
          = { s with promises := addToSetMap rid src s.promises } := by
        rw [on_msg_promise_undecided peers s src r o rid hd]
        split
        · rfl
        · split <;> rfl
      rw [hfst]
      have hd2 : ({ s with promises := addToSetMap rid src s.promises } : PaxosState).decided
          = false := hd
      rw [on_msg_promise_undecided peers
        ({ s with promises := addToSetMap rid src s.promises }) src r o rid hd2]
      split
      · simp [addToSetMap_idem]
      · split <;> simp [addToSetMap_idem]
  · cases hd : s.decided with
    | true =>
      rw [on_msg_internal_decided peers s src _ hd]
      rw [on_msg_internal_decided peers s src _ hd]
    | false =>
      rw [on_msg_accepted_undecided peers s src r o rid v hd]
      split
      · next hc =>
        dsimp only
        rw [on_msg_internal_decided peers _ src _ rfl]
      · next hc =>
        dsimp only
        have hd2 : ({ s with accepts := addToSetMap rid src s.accepts } : PaxosState).decided
            = false := hd
        rw [on_msg_accepted_undecided peers
          ({ s with accepts := addToSetMap rid src s.accepts }) src r o rid v hd2]
        rw [if_neg (by simpa [addToSetMap_idem] using hc)]
        simp [addToSetMap_idem]

/-- C3 counterexample: the claim says the majority test is
`count > peerCount / 2` with `peerCount` the total participant count
INCLUDING the node itself.  With 4 servers that formula rejects a tally of
2 (2 > 4 / 2 is false), yet the code — whose `peers` list from
`model_peers` EXCLUDES the node itself, so `num_peers = 3` — treats a
promise tally of 2 as a majority and broadcasts `Accept`. -/
theorem majority_counterexample :
    (on_msg (model_peers 0 4) fourState 2
        (.Internal (.Promise 7 5 { round_num := 1, id := 0 }))).2 ≠ []
    ∧ isMajority 2 4 = false := by
  refine ⟨?_, rfl⟩
  decide

/-- C3 amended: the code's majority test is `count > peers.len() / 2`
where `peers = model_peers i n` EXCLUDES the node itself, so it compares
against `(n - 1) / 2`; the node's own vote is never counted (its peer list
omits it, and the `Put` handler records no promise/accept for self).  With
3 participants `peers.len() = 2`, so a tally of 2 is a majority and a
tally of 1 is not — that particular consequence of the claim does hold. -/
theorem majority_test_amended (i n : Nat) (h : i < n) :
    (model_peers i n).length = n - 1
    ∧ i ∉ model_peers i n
    ∧ (∀ c, isMajority c (model_peers i n).length = isMajority c (n - 1))
    ∧ isMajority 2 (model_peers 0 3).length = true
    ∧ isMajority 1 (model_peers 0 3).length = false
    ∧ (∀ peers s src r v, (on_msg peers s src (RegisterMsg.Put r v)).1.promises = s.promises
        ∧ (on_msg peers s src (RegisterMsg.Put r v)).1.accepts = s.accepts) := by
  have hlen : ∀ m j, j < m → ((List.range m).filter (fun a => a ≠ j)).length + 1 = m := by
    intro m
    induction m with
    | zero => intro j hj; omega
    | succ k ih =>
      intro j hj
      rw [List.range_succ, List.filter_append]
      by_cases hk : j < k
      · have h1 := ih j hk
        have h2 : List.filter (fun a => decide (a ≠ j)) [k] = [k] := by
          have hne : k ≠ j := by omega
          simp [List.filter, hne]
        rw [h2]
        simp only [List.length_append, List.length_cons, List.length_nil]
        omega
      · have hjk : j = k := by omega
        subst hjk
        have h1 : (List.range j).filter (fun a => a ≠ j) = List.range j := by
          apply List.filter_eq_self.mpr
          intro a ha
          simp only [decide_eq_true_eq]
          exact Nat.ne_of_lt (List.mem_range.mp ha)
        have h2 : List.filter (fun a => decide (a ≠ j)) [j] = [] := by
          simp [List.filter]
        rw [h1, h2]
        simp
  have hlen2 : (model_peers i n).length = n - 1 := by
    have := hlen n i h
    rw [model_peers]
    omega
  refine ⟨hlen2, ?_, ?_, rfl, rfl, ?_⟩
  · simp [model_peers]
  · intro c
    rw [hlen2]
  · intro peers s src r v
    rw [on_msg_put]
    exact ⟨rfl, rfl⟩

theorem majority_test_amended_witness :
    (model_peers 0 3).length = 3 - 1 ∧ (0 : Nat) ∉ model_peers 0 3 := by
  have h := majority_test_amended 0 3 (by decide)
  exact ⟨h.1, h.2.1⟩


theorem mem_model_peers {x i n : Nat} : x ∈ model_peers i n ↔ (x < n ∧ x ≠ i) := by
  simp only [model_peers, List.mem_filter, List.mem_range, decide_eq_true_eq]

theorem length_filter_ne_range (m j : Nat) (hj : j < m) :
    ((List.range m).filter (fun a => a ≠ j)).length + 1 = m := by
  induction m with
  | zero => omega
  | succ k ih =>
    rw [List.range_succ, List.filter_append]
    by_cases hk : j < k
    · have h1 := ih hk
      have h2 : List.filter (fun a => decide (a ≠ j)) [k] = [k] := by
        have hne : k ≠ j := by omega
        simp [List.filter, hne]
      rw [h2]
      simp only [List.length_append, List.length_cons, List.length_nil]
      omega
    · have hjk : j = k := by omega
      subst hjk
      have h1 : (List.range j).filter (fun a => a ≠ j) = List.range j := by
        apply List.filter_eq_self.mpr
        intro a ha
        simp only [decide_eq_true_eq]
        exact Nat.ne_of_lt (List.mem_range.mp ha)
      have h2 : List.filter (fun a => decide (a ≠ j)) [j] = [] := by
        simp [List.filter]
      rw [h1, h2]
      simp

theorem model_peers_length (i n : Nat) (h : i < n) : (model_peers i n).length = n - 1 := by
  have := length_filter_ne_range n i h
  rw [model_peers]
  omega

theorem peersOf_length {n : Nat} (h : n < 3) : (peersOf n).length = 2 :=
  model_peers_length n 3 h

theorem mem_broadcast_map {dst : Nat} {peers : List Nat} {m : RegisterMsg} {e1 : Envelope}
    (h : e1 ∈ (broadcast peers m).map (fun pm => Envelope.mk dst pm.1 pm.2)) :
    e1.src = dst ∧ e1.dst ∈ peers ∧ e1.msg = m := by
  simp only [broadcast, List.map_map, List.mem_map, Function.comp] at h
  obtain ⟨p, hp, he1⟩ := h
  subst he1
  exact ⟨rfl, hp, rfl⟩

theorem countPutOk_append (s1 s2 : List Envelope) (r : Nat) :
    countPutOk (s1 ++ s2) r = countPutOk s1 r + countPutOk s2 r := by
  simp [countPutOk, List.filter_append]

theorem countPutOk_eq_zero (l : List Envelope) (r : Nat)
    (h : ∀ e ∈ l, e.msg ≠ RegisterMsg.PutOk r) : countPutOk l r = 0 := by
  unfold countPutOk
  rw [List.length_eq_zero]
  apply List.filter_eq_nil_iff.mpr
  intro e hel
  simpa using h e hel

theorem countPutOk_pos (sent : List Envelope) (r : Nat) (h : 1 ≤ countPutOk sent r) :
    ∃ e ∈ sent, e.msg = RegisterMsg.PutOk r := by
  unfold countPutOk at h
  have hlen : 0 < (sent.filter (fun e => e.msg = RegisterMsg.PutOk r)).length := by omega
  obtain ⟨x, hx⟩ := List.exists_mem_of_length_pos hlen
  have := List.mem_filter.mp hx
  exact ⟨x, this.1, by simpa using this.2⟩

theorem mem_deliverAt_sent {c : Config} {e e1 : Envelope} (h : e1 ∈ (deliverAt c e).sent) :
    e1 ∈ c.sent
    ∨ e1 ∈ (on_msg (peersOf e.dst) (c.states e.dst) e.src e.msg).2.map
        (fun pm => Envelope.mk e.dst pm.1 pm.2) :=
  List.mem_append.mp h

theorem deliverAt_sent (c : Config) (e : Envelope) :
    (deliverAt c e).sent = c.sent
      ++ (on_msg (peersOf e.dst) (c.states e.dst) e.src e.msg).2.map
          (fun pm => Envelope.mk e.dst pm.1 pm.2) := rfl

theorem deliverAt_states (c : Config) (e : Envelope) (n : Nat) :
    (deliverAt c e).states n
      = if n = e.dst then (on_msg (peersOf e.dst) (c.states e.dst) e.src e.msg).1
        else c.states n := rfl

theorem inv_init (puts : List Envelope) (hp : PutsOk puts) : Inv puts (init puts) := by
  have hput : ∀ e ∈ puts, ∀ im : PaxosMsg, e.msg ≠ RegisterMsg.Internal im := by
    intro e hel im hmsg
    have := (hp.1 e hel).1
    rw [hmsg] at this
    simp [isPutMsg] at this
  have hputok : ∀ e ∈ puts, ∀ r, e.msg ≠ RegisterMsg.PutOk r := by
    intro e hel r hmsg
    have := (hp.1 e hel).1
    rw [hmsg] at this
    simp [isPutMsg] at this
  refine ⟨?_, ?_, ?_, ?_, ?_, ?_, ?_, ?_, ?_⟩
  · intro e hel r v _; exact hel
  · intro n _; rfl
  · intro n _ rid v hfind; simp [init, on_start, mapFind] at hfind
  · intro e hel im hmsg; exact absurd hmsg (hput e hel im)
  · intro e hel r o rid v hmsg; exact absurd hmsg (hput e hel _)
  · intro e hel r o rid v hmsg; exact absurd hmsg (hput e hel _)
  · intro n _ rid l hfind; simp [init, on_start, mapFind] at hfind
  · intro r
    rw [show (init puts).sent = puts from rfl,
      countPutOk_eq_zero puts r (fun e hel => hputok e hel r)]
    omega
  · intro e hel r hmsg; exact absurd hmsg (hputok e hel r)


/-- Frame step lemma: delivering `e` preserves the invariant whenever the
new local state keeps the tracked components well-formed and every output
is an `Internal` message satisfying the per-message invariants. -/
theorem inv_deliver_frame (puts : List Envelope) (c : Config) (e : Envelope)
    (inv : Inv puts c) (hdst : e.dst < 3)
    (hid : (on_msg (peersOf e.dst) (c.states e.dst) e.src e.msg).1.id = (c.states e.dst).id)
    (hpdok : ∀ rid v,
        mapFind rid (on_msg (peersOf e.dst) (c.states e.dst) e.src e.msg).1.prepare_data = some v
        → rid.id = e.dst)
    (haccok : ∀ rid l,
        mapFind rid (on_msg (peersOf e.dst) (c.states e.dst) e.src e.msg).1.accepts = some l
        → l.Pairwise (· < ·) ∧ ∀ a ∈ l, a < 3 ∧ a ≠ rid.id ∧ a ≠ e.dst)
    (hdec : (c.states e.dst).decided = true
        → (on_msg (peersOf e.dst) (c.states e.dst) e.src e.msg).1.decided = true)
    (hout : ∀ e1 ∈ (on_msg (peersOf e.dst) (c.states e.dst) e.src e.msg).2.map
        (fun pm => Envelope.mk e.dst pm.1 pm.2),
        (∀ r v, e1.msg ≠ RegisterMsg.Put r v)
        ∧ (∀ r, e1.msg ≠ RegisterMsg.PutOk r)
        ∧ (∀ im, e1.msg = RegisterMsg.Internal im →
            ∃ p ∈ puts, ∃ v, p.msg = RegisterMsg.Put im.req v ∧ p.dst = im.rid.id)
        ∧ (∀ r o rid v, e1.msg = RegisterMsg.Internal (PaxosMsg.Accept r o rid v) →
            e1.src = rid.id ∧ e1.dst ≠ rid.id ∧ e1.dst < 3)
        ∧ (∀ r o rid v, e1.msg = RegisterMsg.Internal (PaxosMsg.Accepted r o rid v) →
            e1.src ≠ rid.id ∧ e1.src < 3 ∧ e1.dst ≠ e1.src)) :
    Inv puts (deliverAt c e) := by
  refine ⟨?_, ?_, ?_, ?_, ?_, ?_, ?_, ?_, ?_⟩
  · intro e1 hel r v hmsg
    rcases mem_deliverAt_sent hel with hold | hnew
    · exact inv.puts_only e1 hold r v hmsg
    · exact absurd hmsg ((hout e1 hnew).1 r v)
  · intro n hn
    rw [deliverAt_states]
    by_cases hne : n = e.dst
    · subst hne; rw [if_pos rfl, hid]; exact inv.ids_ok _ hn
    · rw [if_neg hne]; exact inv.ids_ok n hn
  · intro n hn rid v hfind
    rw [deliverAt_states] at hfind
    by_cases hne : n = e.dst
    · subst hne; rw [if_pos rfl] at hfind; exact hpdok rid v hfind
    · rw [if_neg hne] at hfind; exact inv.pd_ok n hn rid v hfind
  · intro e1 hel im hmsg
    rcases mem_deliverAt_sent hel with hold | hnew
    · exact inv.traced e1 hold im hmsg
    · exact (hout e1 hnew).2.2.1 im hmsg
  · intro e1 hel r o rid v hmsg
    rcases mem_deliverAt_sent hel with hold | hnew
    · exact inv.accept_src e1 hold r o rid v hmsg
    · exact (hout e1 hnew).2.2.2.1 r o rid v hmsg
  · intro e1 hel r o rid v hmsg
    rcases mem_deliverAt_sent hel with hold | hnew
    · exact inv.accepted_src e1 hold r o rid v hmsg
    · exact (hout e1 hnew).2.2.2.2 r o rid v hmsg
  · intro n hn rid l hfind
    rw [deliverAt_states] at hfind
    by_cases hne : n = e.dst
    · subst hne; rw [if_pos rfl] at hfind; exact haccok rid l hfind
    · rw [if_neg hne] at hfind; exact inv.acc_sets n hn rid l hfind
  · intro r
    rw [deliverAt_sent, countPutOk_append]
    have hz : countPutOk ((on_msg (peersOf e.dst) (c.states e.dst) e.src e.msg).2.map
        (fun pm => Envelope.mk e.dst pm.1 pm.2)) r = 0 :=
      countPutOk_eq_zero _ r (fun e1 h1 => (hout e1 h1).2.1 r)
    rw [hz]
    have := inv.putok_le r
    omega
  · intro e1 hel r hmsg p hpel v hpmsg
    rcases mem_deliverAt_sent hel with hold | hnew
    · have hdold := inv.putok_decided e1 hold r hmsg p hpel v hpmsg
      rw [deliverAt_states]
      by_cases hne : p.dst = e.dst
      · rw [if_pos hne]; rw [hne] at hdold; exact hdec hdold
      · rw [if_neg hne]; exact hdold
    · exact absurd hmsg ((hout e1 hnew).2.1 r)


theorem inv_deliver_other (puts : List Envelope) (c : Config)
    (inv : Inv puts c) (esrc edst : Nat) (msg : RegisterMsg) (hdst : edst < 3)
    (hres : on_msg (peersOf edst) (c.states edst) esrc msg = (c.states edst, [])) :
    Inv puts (deliverAt c (Envelope.mk esrc edst msg)) := by
  apply inv_deliver_frame puts c _ inv hdst
  · rw [hres]
  · intro rid v h; rw [hres] at h; exact inv.pd_ok edst hdst rid v h
  · intro rid l h; rw [hres] at h; exact inv.acc_sets edst hdst rid l h
  · intro h2; rw [hres]; exact h2
  · intro e1 h1; rw [hres] at h1; simp at h1

theorem inv_deliver_internal_decided (puts : List Envelope) (c : Config)
    (inv : Inv puts c) (esrc edst : Nat) (im : PaxosMsg) (hdst : edst < 3)
    (hd : (c.states edst).decided = true) :
    Inv puts (deliverAt c (Envelope.mk esrc edst (.Internal im))) :=
  inv_deliver_other puts c inv esrc edst (.Internal im) hdst
    (on_msg_internal_decided (peersOf edst) (c.states edst) esrc im hd)

theorem inv_deliver_prepare (puts : List Envelope) (c : Config)
    (inv : Inv puts c) (esrc edst r1 o1 : Nat) (rid1 : RoundIdentifier)
    (he : Envelope.mk esrc edst (.Internal (.Prepare r1 o1 rid1)) ∈ c.sent)
    (hdst : edst < 3) (hd : (c.states edst).decided = false) :
    Inv puts (deliverAt c (Envelope.mk esrc edst (.Internal (.Prepare r1 o1 rid1)))) := by
  have hres := on_msg_prepare_undecided (peersOf edst) (c.states edst) esrc r1 o1 rid1 hd
  apply inv_deliver_frame puts c _ inv hdst
  · rw [hres]; split <;> rfl
  · intro rid v h
    rw [hres] at h
    split at h
    · exact inv.pd_ok edst hdst rid v h
    · exact inv.pd_ok edst hdst rid v h
  · intro rid l h
    rw [hres] at h
    split at h
    · exact inv.acc_sets edst hdst rid l h
    · exact inv.acc_sets edst hdst rid l h
  · intro h2; rw [hd] at h2; cases h2
  · intro e1 h1
    rw [hres] at h1
    split at h1
    · simp only [List.map_cons, List.map_nil, List.mem_singleton] at h1
      subst h1
      refine ⟨fun r v h => by simp at h, fun r h => by simp at h, ?_,
        fun r o rid v h => by simp at h, fun r o rid v h => by simp at h⟩
      intro im2 hmsg
      injection hmsg with h2
      subst h2
      exact inv.traced _ he (.Prepare r1 o1 rid1) rfl
    · simp at h1

theorem inv_deliver_promise (puts : List Envelope) (c : Config)
    (inv : Inv puts c) (esrc edst r1 o1 : Nat) (rid1 : RoundIdentifier)
    (he : Envelope.mk esrc edst (.Internal (.Promise r1 o1 rid1)) ∈ c.sent)
    (hdst : edst < 3) (hd : (c.states edst).decided = false) :
    Inv puts (deliverAt c (Envelope.mk esrc edst (.Internal (.Promise r1 o1 rid1)))) := by
  have hres := on_msg_promise_undecided (peersOf edst) (c.states edst) esrc r1 o1 rid1 hd
  apply inv_deliver_frame puts c _ inv hdst
  · rw [hres]
    split
    · rfl
    · split <;> rfl
  · intro rid v h
    rw [hres] at h
    split at h
    · exact inv.pd_ok edst hdst rid v h
    · split at h <;> exact inv.pd_ok edst hdst rid v h
  · intro rid l h
    rw [hres] at h
    split at h
    · exact inv.acc_sets edst hdst rid l h
    · split at h <;> exact inv.acc_sets edst hdst rid l h
  · intro h2; rw [hd] at h2; cases h2
  · intro e1 h1
    rw [hres] at h1
    split at h1
    · simp at h1
    · next value hfind =>
      split at h1
      · obtain ⟨hs1, hd1, hm1⟩ := mem_broadcast_map h1
        have hridid : rid1.id = edst := inv.pd_ok edst hdst rid1 value hfind
        refine ⟨fun r v h => by rw [hm1] at h; simp at h,
          fun r h => by rw [hm1] at h; simp at h, ?_, ?_,
          fun r o rid v h => by rw [hm1] at h; simp at h⟩
        · intro im2 hmsg
          rw [hm1] at hmsg
          injection hmsg with h2
          subst h2
          exact inv.traced _ he (.Promise r1 o1 rid1) rfl
        · intro r o rid v h
          rw [hm1] at h
          injection h with h2
          injection h2 with hr ho hrid hv
          subst hrid
          obtain ⟨hlt, hne⟩ := mem_model_peers.mp hd1
          refine ⟨by rw [hs1, hridid], by rw [hridid]; exact hne, hlt⟩
      · simp at h1

theorem inv_deliver_accept (puts : List Envelope) (c : Config)
    (inv : Inv puts c) (esrc edst r1 o1 : Nat) (rid1 : RoundIdentifier) (v1 : RegisterValue)
    (he : Envelope.mk esrc edst (.Internal (.Accept r1 o1 rid1 v1)) ∈ c.sent)
    (hdst : edst < 3) (hd : (c.states edst).decided = false) :
    Inv puts (deliverAt c (Envelope.mk esrc edst (.Internal (.Accept r1 o1 rid1 v1)))) := by
  have hres := on_msg_accept_undecided (peersOf edst) (c.states edst) esrc r1 o1 rid1 v1 hd
  apply inv_deliver_frame puts c _ inv hdst
  · rw [hres]; split <;> rfl
  · intro rid v h
    rw [hres] at h
    split at h
    · exact inv.pd_ok edst hdst rid v h
    · exact inv.pd_ok edst hdst rid v h
  · intro rid l h
    rw [hres] at h
    split at h
    · exact inv.acc_sets edst hdst rid l h
    · exact inv.acc_sets edst hdst rid l h
  · intro h2; rw [hd] at h2; cases h2
  · intro e1 h1
    rw [hres] at h1
    split at h1
    · obtain ⟨hs1, hd1, hm1⟩ := mem_broadcast_map h1
      obtain ⟨hasrc, hadst, _⟩ := inv.accept_src _ he r1 o1 rid1 v1 rfl
      refine ⟨fun r v h => by rw [hm1] at h; simp at h,
        fun r h => by rw [hm1] at h; simp at h, ?_,
        fun r o rid v h => by rw [hm1] at h; simp at h, ?_⟩
      · intro im2 hmsg
        rw [hm1] at hmsg
        injection hmsg with h2
        subst h2
        exact inv.traced _ he (.Accept r1 o1 rid1 v1) rfl
      · intro r o rid v h
        rw [hm1] at h
        injection h with h2
        injection h2 with hr ho hrid hv
        subst hrid
        obtain ⟨hlt, hne⟩ := mem_model_peers.mp hd1
        refine ⟨by rw [hs1]; exact hadst, by rw [hs1]; exact hdst, by rw [hs1]; exact hne⟩
    · simp at h1

theorem inv_deliver_put (puts : List Envelope) (c : Config)
    (inv : Inv puts c) (esrc edst r1 : Nat) (v1 : RegisterValue)
    (he : Envelope.mk esrc edst (.Put r1 v1) ∈ c.sent)
    (hdst : edst < 3) :
    Inv puts (deliverAt c (Envelope.mk esrc edst (.Put r1 v1))) := by
  have hres := on_msg_put (peersOf edst) (c.states edst) esrc r1 v1
  have hid := inv.ids_ok edst hdst
  apply inv_deliver_frame puts c _ inv hdst
  · rw [hres]
  · intro rid v h
    rw [hres] at h
    dsimp only at h
    by_cases hrr : rid = { round_num := ((c.states edst).round + 1) % 2 ^ 32, id := (c.states edst).id }
    · rw [hrr]; exact hid
    · rw [mapFind_mapInsert_ne _ rid v1 _ hrr] at h
      exact inv.pd_ok edst hdst rid v h
  · intro rid l h
    rw [hres] at h
    exact inv.acc_sets edst hdst rid l h
  · intro h2; rw [hres]; exact h2
  · intro e1 h1
    rw [hres] at h1
    obtain ⟨hs1, hd1, hm1⟩ := mem_broadcast_map h1
    refine ⟨fun r v h => by rw [hm1] at h; simp at h,
      fun r h => by rw [hm1] at h; simp at h, ?_,
      fun r o rid v h => by rw [hm1] at h; simp at h,
      fun r o rid v h => by rw [hm1] at h; simp at h⟩
    intro im2 hmsg
    rw [hm1] at hmsg
    injection hmsg with h2
    subst h2
    refine ⟨Envelope.mk esrc edst (.Put r1 v1), inv.puts_only _ he r1 v1 rfl, v1, rfl, ?_⟩
    exact hid.symm


theorem inv_deliver_accepted (puts : List Envelope) (c : Config) (hp : PutsOk puts)
    (inv : Inv puts c) (esrc edst r1 o1 : Nat) (rid1 : RoundIdentifier) (v1 : RegisterValue)
    (he : Envelope.mk esrc edst (.Internal (.Accepted r1 o1 rid1 v1)) ∈ c.sent)
    (hdst : edst < 3) (hd : (c.states edst).decided = false) :
    Inv puts (deliverAt c (Envelope.mk esrc edst (.Internal (.Accepted r1 o1 rid1 v1)))) := by
  have hres := on_msg_accepted_undecided (peersOf edst) (c.states edst) esrc r1 o1 rid1 v1 hd
  obtain ⟨ha1, ha2, ha3⟩ := inv.accepted_src _ he r1 o1 rid1 v1 rfl
  dsimp only at ha1 ha2 ha3
  obtain ⟨p0, hp0, v0, hp0msg, hp0dst⟩ := inv.traced _ he (.Accepted r1 o1 rid1 v1) rfl
  dsimp only [PaxosMsg.req, PaxosMsg.rid] at hp0msg hp0dst
  have hrid1lt : rid1.id < 3 := by
    have hlt := (hp.1 p0 hp0).2
    rw [hp0dst] at hlt
    exact hlt
  have haccok2 : ∀ rid l, mapFind rid (addToSetMap rid1 esrc (c.states edst).accepts) = some l →
      l.Pairwise (· < ·) ∧ ∀ a ∈ l, a < 3 ∧ a ≠ rid.id ∧ a ≠ edst := by
    intro rid l hfind
    by_cases hrr : rid = rid1
    · subst hrr
      rw [mapFind_addToSetMap_self] at hfind
      injection hfind with hfind
      cases hold : mapFind rid (c.states edst).accepts with
      | none =>
        rw [hold] at hfind
        subst hfind
        refine ⟨by simp, ?_⟩
        intro a ha
        have ha4 : a = esrc := by simpa using ha
        subst ha4
        exact ⟨ha2, ha1, fun hcc => ha3 hcc.symm⟩
      | some l0 =>
        rw [hold] at hfind
        obtain ⟨hs0, hmem0⟩ := inv.acc_sets edst hdst rid l0 hold
        subst hfind
        refine ⟨listInsert_sorted esrc l0 hs0, ?_⟩
        intro a ha
        rcases listInsert_mem esrc a l0 ha with rfl | hha
        · exact ⟨ha2, ha1, fun hcc => ha3 hcc.symm⟩
        · exact hmem0 a hha
    · rw [mapFind_addToSetMap_ne rid1 rid esrc _ hrr] at hfind
      exact inv.acc_sets edst hdst rid l hfind
  by_cases hth : (match mapFind rid1 (addToSetMap rid1 esrc (c.states edst).accepts) with
      | some l => l.length | none => 0) > (peersOf edst).length / 2
  · -- the majority was reached: a PutOk is emitted and the node decides
    have hres2 : on_msg (peersOf edst) (c.states edst) esrc
        (.Internal (.Accepted r1 o1 rid1 v1))
        = ({ (c.states edst) with
              accepts := addToSetMap rid1 esrc (c.states edst).accepts
              value := some v1
              decided := true }, [(o1, .PutOk r1)]) := by
      rw [hres, if_pos hth]
    have hkey : edst = rid1.id := by
      by_contra hne
      rw [mapFind_addToSetMap_self, peersOf_length hdst] at hth
      cases hold : mapFind rid1 (c.states edst).accepts with
      | none =>
        rw [hold] at hth
        simp at hth
      | some l0 =>
        rw [hold] at hth
        dsimp only at hth
        obtain ⟨hs0, hmem0⟩ := inv.acc_sets edst hdst rid1 l0 hold
        have hsorted := listInsert_sorted esrc l0 hs0
        have hallz : ∀ a ∈ listInsert esrc l0, a = 3 - rid1.id - edst := by
          intro a ha
          rcases listInsert_mem esrc a l0 ha with rfl | hha
          · omega
          · obtain ⟨t1, t2, t3⟩ := hmem0 a hha
            omega
        have hlen := sorted_all_eq_length_le_one _ _ hsorted hallz
        omega
    have hsent2 : (deliverAt c (Envelope.mk esrc edst (.Internal (.Accepted r1 o1 rid1 v1)))).sent
        = c.sent ++ [Envelope.mk edst o1 (.PutOk r1)] := by
      rw [deliverAt_sent, hres2]
      try rfl
    have hstates : ∀ n,
        (deliverAt c (Envelope.mk esrc edst (.Internal (.Accepted r1 o1 rid1 v1)))).states n
        = if n = edst then
            ({ (c.states edst) with
                accepts := addToSetMap rid1 esrc (c.states edst).accepts
                value := some v1
                decided := true })
          else c.states n := by
      intro n
      rw [deliverAt_states, hres2]
      try rfl
    have hnewcount : ∀ r, countPutOk [Envelope.mk edst o1 (RegisterMsg.PutOk r1)] r
        = if r1 = r then 1 else 0 := by
      intro r
      by_cases hr : r1 = r
      · subst hr; simp [countPutOk, List.filter]
      · simp [countPutOk, List.filter, hr]
    refine ⟨?_, ?_, ?_, ?_, ?_, ?_, ?_, ?_, ?_⟩
    · intro e1 hel r v hmsg
      rw [hsent2] at hel
      rcases List.mem_append.mp hel with hold2 | hnew
      · exact inv.puts_only e1 hold2 r v hmsg
      · have he1 : e1 = Envelope.mk edst o1 (.PutOk r1) := by simpa using hnew
        rw [he1] at hmsg
        simp at hmsg
    · intro n hn
      rw [hstates]
      by_cases hne : n = edst
      · subst hne; rw [if_pos rfl]; exact inv.ids_ok _ hn
      · rw [if_neg hne]; exact inv.ids_ok n hn
    · intro n hn rid v hfind
      rw [hstates] at hfind
      by_cases hne : n = edst
      · subst hne; rw [if_pos rfl] at hfind; exact inv.pd_ok _ hn rid v hfind
      · rw [if_neg hne] at hfind; exact inv.pd_ok n hn rid v hfind
    · intro e1 hel im hmsg
      rw [hsent2] at hel
      rcases List.mem_append.mp hel with hold2 | hnew
      · exact inv.traced e1 hold2 im hmsg
      · have he1 : e1 = Envelope.mk edst o1 (.PutOk r1) := by simpa using hnew
        rw [he1] at hmsg
        simp at hmsg
    · intro e1 hel r o rid v hmsg
      rw [hsent2] at hel
      rcases List.mem_append.mp hel with hold2 | hnew
      · exact inv.accept_src e1 hold2 r o rid v hmsg
      · have he1 : e1 = Envelope.mk edst o1 (.PutOk r1) := by simpa using hnew
        rw [he1] at hmsg
        simp at hmsg
    · intro e1 hel r o rid v hmsg
      rw [hsent2] at hel
      rcases List.mem_append.mp hel with hold2 | hnew
      · exact inv.accepted_src e1 hold2 r o rid v hmsg
      · have he1 : e1 = Envelope.mk edst o1 (.PutOk r1) := by simpa using hnew
        rw [he1] at hmsg
        simp at hmsg
    · intro n hn rid l hfind
      rw [hstates] at hfind
      by_cases hne : n = edst
      · subst hne; rw [if_pos rfl] at hfind; exact haccok2 rid l hfind
      · rw [if_neg hne] at hfind; exact inv.acc_sets n hn rid l hfind
    · intro r
      rw [hsent2, countPutOk_append, hnewcount]
      by_cases hr : r1 = r
      · subst hr
        rw [if_pos rfl]
        have hzero : countPutOk c.sent r1 = 0 := by
          by_contra hnz
          have hpos : 1 ≤ countPutOk c.sent r1 := by omega
          obtain ⟨e2, he2, hmsg2⟩ := countPutOk_pos c.sent r1 hpos
          have hdec := inv.putok_decided e2 he2 r1 hmsg2 p0 hp0 v0 hp0msg
          rw [hp0dst, ← hkey, hd] at hdec
          cases hdec
        rw [hzero]
      · rw [if_neg hr]
        have := inv.putok_le r
        omega
    · intro e1 hel r hmsg p hpel v hpmsg
      rw [hsent2] at hel
      rcases List.mem_append.mp hel with hold2 | hnew
      · have hdold := inv.putok_decided e1 hold2 r hmsg p hpel v hpmsg
        rw [hstates]
        by_cases hne : p.dst = edst
        · rw [if_pos hne]
        · rw [if_neg hne]; exact hdold
      · have he1 : e1 = Envelope.mk edst o1 (.PutOk r1) := by simpa using hnew
        rw [he1] at hmsg
        injection hmsg with hr
        subst hr
        have hdstp : p.dst = p0.dst := hp.2 p hpel p0 hp0 (by simp [hpmsg, hp0msg, reqOfMsg])
        rw [hstates, hdstp, hp0dst, ← hkey, if_pos rfl]
  · -- below the majority threshold: only the tally is updated
    have hres2 : on_msg (peersOf edst) (c.states edst) esrc
        (.Internal (.Accepted r1 o1 rid1 v1))
        = ({ (c.states edst) with
              accepts := addToSetMap rid1 esrc (c.states edst).accepts }, []) := by
      rw [hres, if_neg hth]
    apply inv_deliver_frame puts c _ inv hdst
    · rw [hres2]
    · intro rid v h; rw [hres2] at h; exact inv.pd_ok edst hdst rid v h
    · intro rid l h; rw [hres2] at h; exact haccok2 rid l h
    · intro h2; rw [hd] at h2; cases h2
    · intro e1 h1; rw [hres2] at h1; simp at h1


theorem inv_step (puts : List Envelope) (hp : PutsOk puts) {c c2 : Config}
    (inv : Inv puts c) (hs : Step c c2) : Inv puts c2 := by
  cases hs with
  | deliver e he hdst =>
    obtain ⟨esrc, edst, emsg⟩ := e
    cases emsg with
    | Put r1 v1 => exact inv_deliver_put puts c inv esrc edst r1 v1 he hdst
    | Get r1 => exact inv_deliver_other puts c inv esrc edst _ hdst rfl
    | PutOk r1 => exact inv_deliver_other puts c inv esrc edst _ hdst rfl
    | GetOk r1 v1 => exact inv_deliver_other puts c inv esrc edst _ hdst rfl
    | Internal im =>
      cases hd : (c.states edst).decided with
      | true => exact inv_deliver_internal_decided puts c inv esrc edst im hdst hd
      | false =>
        cases im with
        | Prepare r1 o1 rid1 =>
          exact inv_deliver_prepare puts c inv esrc edst r1 o1 rid1 he hdst hd
        | Promise r1 o1 rid1 =>
          exact inv_deliver_promise puts c inv esrc edst r1 o1 rid1 he hdst hd
        | Accept r1 o1 rid1 v1 =>
          exact inv_deliver_accept puts c inv esrc edst r1 o1 rid1 v1 he hdst hd
        | Accepted r1 o1 rid1 v1 =>
          exact inv_deliver_accepted puts c hp inv esrc edst r1 o1 rid1 v1 he hdst hd

theorem inv_reachable (puts : List Envelope) (hp : PutsOk puts) (c : Config)
    (hc : Reachable (init puts) c) : Inv puts c := by
  induction hc with
  | refl => exact inv_init puts hp
  | step hr hs ih => exact inv_step puts hp ih hs

/-- C4: at-most-one response per correlation id.  For the 3-server system
built by `main()`, under an adversarial network that may reorder, duplicate
or drop any message, and for any pre-loaded set of client `Put` requests in
which requests sharing a correlation id target the same server (stateright
request ids are globally unique, so this holds), every reachable
configuration's message log contains at most one `PutOk` carrying any given
request id. -/
theorem at_most_one_response (puts : List Envelope) (hp : PutsOk puts)
    (c : Config) (hc : Reachable (init puts) c) (r : Nat) :
    countPutOk c.sent r ≤ 1 :=
  (inv_reachable puts hp c hc).putok_le r

theorem at_most_one_response_witness :
    countPutOk (run (init tracePuts) traceSched).sent 10 ≤ 1 :=
  at_most_one_response tracePuts
    (by constructor
        · decide
        · decide)
    (run (init tracePuts) traceSched)
    (reachable_run traceSched (init tracePuts) (by decide)) 10

end Paxos
